import Mathlib

/-!
# Verification of the truth-table trainer's logic core

A shallow embedding of the logic engine of `src/src/App.tsx`: the tokenizer,
the recursive-descent parser, the evaluator, the assignment enumerator, the
subformula collector, the two pretty-printers, the grammaticality normalizer
and the random formula generator, together with proofs of the specified
properties.

Modelling conventions:
* JS strings are modelled as `List Char` (with `String` wrappers at the API
  boundary); single-character variable names are `Char`.
* Thrown JS `Error`s are modelled as `Except String`.
* The source gives every AST node a unique `id` (`genId`), used only to
  correlate nodes with UI columns, never for formula meaning; all claims are
  stated up to node identity, so the embedding omits the `id` field and works
  with the structural tree.
* The parser's mutable cursor `pos` is modelled by passing the remaining
  token list; the mutually recursive parse functions take a fuel parameter
  (decremented at every call) so that they are structurally recursive and
  computable.  `parseFormula` supplies `8 * tokens.length + 8` fuel, which is
  enough for every parse the source can perform (each of the six grammar
  levels visits each token at most once, plus slack).
* `Math.random()` draws are modelled by an explicit entropy stream
  (`List Nat`) consumed in source order.
-/

namespace TruthTableTrainer

/-! ## Tokens and the tokenizer (`tokenize`, App.tsx lines 5-64) -/

inductive TokenT where
  | VAR (name : Char)
  | LPAREN
  | RPAREN
  | NOT
  | AND
  | OR
  | IMP
  | BICOND
deriving DecidableEq, Repr

mutual

/-- `tokenize`, translated branch by branch from the source `while` loop.
The branch order is the source's `if`/`else if` order; in particular the
uppercase-letter branch is tested before the `v`/`V`/`∨` branch.  The
two-character lookahead `input.slice(i, i + 2) === "->"` and the
three-character lookahead `input.slice(i, i + 3) === "<->"` are factored
into the two helper functions below (once `c` is `-` or `<`, none of the
source's later branches can match, so a failed lookahead is the source's
final `Unexpected character` error). -/
def tokenize : List Char → Except String (List TokenT)
  | [] => .ok []
  | c :: cs =>
    if c = ' ' ∨ c = '\t' ∨ c = '\n' then
      tokenize cs
    else if 'A' ≤ c ∧ c ≤ 'Z' then
      (tokenize cs).map (fun ts => .VAR c :: ts)
    else if c = '(' then
      (tokenize cs).map (fun ts => .LPAREN :: ts)
    else if c = ')' then
      (tokenize cs).map (fun ts => .RPAREN :: ts)
    else if c = '~' ∨ c = '¬' then
      (tokenize cs).map (fun ts => .NOT :: ts)
    else if c = '&' ∨ c = '∧' then
      (tokenize cs).map (fun ts => .AND :: ts)
    else if c = 'v' ∨ c = 'V' ∨ c = '∨' then
      (tokenize cs).map (fun ts => .OR :: ts)
    else if c = '-' then
      tokenizeAfterDash cs
    else if c = '→' then
      (tokenize cs).map (fun ts => .IMP :: ts)
    else if c = '<' then
      tokenizeAfterLess cs
    else if c = '↔' then
      (tokenize cs).map (fun ts => .BICOND :: ts)
    else
      .error ("Unexpected character: " ++ String.mk [c])

/-- Continuation after a `-`: the source accepts exactly `->` here. -/
def tokenizeAfterDash : List Char → Except String (List TokenT)
  | [] => .error ("Unexpected character: " ++ String.mk ['-'])
  | c :: cs =>
    if c = '>' then (tokenize cs).map (fun ts => .IMP :: ts)
    else .error ("Unexpected character: " ++ String.mk ['-'])

/-- Continuation after a `<`: the source accepts exactly `<->` here. -/
def tokenizeAfterLess : List Char → Except String (List TokenT)
  | [] => .error ("Unexpected character: " ++ String.mk ['<'])
  | c :: cs =>
    if c = '-' then tokenizeAfterLessDash cs
    else .error ("Unexpected character: " ++ String.mk ['<'])

/-- Continuation after `<-`: the `>` must follow. -/
def tokenizeAfterLessDash : List Char → Except String (List TokenT)
  | [] => .error ("Unexpected character: " ++ String.mk ['<'])
  | c :: cs =>
    if c = '>' then (tokenize cs).map (fun ts => .BICOND :: ts)
    else .error ("Unexpected character: " ++ String.mk ['<'])

end

def tokenizeStr (s : String) : Except String (List TokenT) :=
  tokenize s.data

/-! ## The AST (`FormulaNode`, App.tsx lines 66-79) -/

inductive BinOp where
  | AND
  | OR
  | IMP
  | BICOND
deriving DecidableEq, Repr

inductive FormulaNode where
  | VAR (name : Char)
  | UNARY (child : FormulaNode)
  | BINARY (op : BinOp) (left right : FormulaNode)
deriving DecidableEq, Repr

/-! ## The parser (`parseFormula`, App.tsx lines 87-184)

Each grammar level is one function; the source's `while` loops become the
`...Aux` helpers.  The result pairs the parsed node with the unconsumed
tokens (the source's `pos` cursor). -/

abbrev ParseRes := Except String (FormulaNode × List TokenT)

def fuelMsg : String := "internal: out of fuel"

mutual

def parsePrimary : Nat → List TokenT → ParseRes
  | 0, _ => .error fuelMsg
  | f + 1, ts =>
    match ts with
    | [] => .error "Unexpected end of input in primary"
    | .VAR a :: rest => .ok (.VAR a, rest)
    | .LPAREN :: rest =>
      match parseBicond f rest with
      | .error e => .error e
      | .ok (inside, rest2) =>
        match rest2 with
        | .RPAREN :: rest3 => .ok (inside, rest3)
        | _ => .error "Missing closing parenthesis"
    | _ :: _ => .error "Unexpected token in primary"

def parseUnary : Nat → List TokenT → ParseRes
  | 0, _ => .error fuelMsg
  | f + 1, ts =>
    match ts with
    | .NOT :: rest =>
      match parseUnary f rest with
      | .error e => .error e
      | .ok (child, rest2) => .ok (.UNARY child, rest2)
    | _ => parsePrimary f ts

def parseAnd : Nat → List TokenT → ParseRes
  | 0, _ => .error fuelMsg
  | f + 1, ts =>
    match parseUnary f ts with
    | .error e => .error e
    | .ok (n, rest) => parseAndAux f n rest

def parseAndAux : Nat → FormulaNode → List TokenT → ParseRes
  | 0, _, _ => .error fuelMsg
  | f + 1, n, ts =>
    match ts with
    | .AND :: rest =>
      match parseUnary f rest with
      | .error e => .error e
      | .ok (right, rest2) => parseAndAux f (.BINARY .AND n right) rest2
    | _ => .ok (n, ts)

def parseOr : Nat → List TokenT → ParseRes
  | 0, _ => .error fuelMsg
  | f + 1, ts =>
    match parseAnd f ts with
    | .error e => .error e
    | .ok (n, rest) => parseOrAux f n rest

def parseOrAux : Nat → FormulaNode → List TokenT → ParseRes
  | 0, _, _ => .error fuelMsg
  | f + 1, n, ts =>
    match ts with
    | .OR :: rest =>
      match parseAnd f rest with
      | .error e => .error e
      | .ok (right, rest2) => parseOrAux f (.BINARY .OR n right) rest2
    | _ => .ok (n, ts)

def parseImp : Nat → List TokenT → ParseRes
  | 0, _ => .error fuelMsg
  | f + 1, ts =>
    match parseOr f ts with
    | .error e => .error e
    | .ok (n, rest) => parseImpAux f n rest

def parseImpAux : Nat → FormulaNode → List TokenT → ParseRes
  | 0, _, _ => .error fuelMsg
  | f + 1, n, ts =>
    match ts with
    | .IMP :: rest =>
      match parseOr f rest with
      | .error e => .error e
      | .ok (right, rest2) => parseImpAux f (.BINARY .IMP n right) rest2
    | _ => .ok (n, ts)

def parseBicond : Nat → List TokenT → ParseRes
  | 0, _ => .error fuelMsg
  | f + 1, ts =>
    match parseImp f ts with
    | .error e => .error e
    | .ok (n, rest) => parseBicondAux f n rest

def parseBicondAux : Nat → FormulaNode → List TokenT → ParseRes
  | 0, _, _ => .error fuelMsg
  | f + 1, n, ts =>
    match ts with
    | .BICOND :: rest =>
      match parseImp f rest with
      | .error e => .error e
      | .ok (right, rest2) => parseBicondAux f (.BINARY .BICOND n right) rest2
    | _ => .ok (n, ts)

end

/-- `parseFormula`: tokenize, parse the top-level `Bicond` production, and
require the whole token stream to be consumed. -/
def parseFormula (s : String) : Except String FormulaNode :=
  match tokenizeStr s with
  | .error e => .error e
  | .ok toks =>
    match parseBicond (8 * toks.length + 8) toks with
    | .error e => .error e
    | .ok (root, rest) =>
      if rest = [] then .ok root else .error "Extra tokens at end of input"

/-! ## Assignments and the assignment enumerator
(`allAssignments`, App.tsx lines 200-214)

A JS `Assignment` record built by `atoms.forEach((atom, i) => ...)` is
modelled as the association list produced in the same insertion order. -/

/-- The body of the source's `atoms.forEach((atom, i) => { const bitPos =
n - 1 - i; asg[atom] = !!(mask & (1 << bitPos)); })`, with `i` the index of
the current atom and `n` the full atom count. -/
def rowOfAux (n mask : Nat) : List Char → Nat → List (Char × Bool)
  | [], _ => []
  | a :: as, i => (a, mask.testBit (n - 1 - i)) :: rowOfAux n mask as (i + 1)

/-- One row of the truth table: the assignment record built for `mask`. -/
def rowOf (atoms : List Char) (mask : Nat) : List (Char × Bool) :=
  rowOfAux atoms.length mask atoms 0

/-- `allAssignments`: the source loops `for (mask = total - 1; mask >= 0;
mask--)`, pushing one row per mask, i.e. the rows for masks
`2^n - 1, ..., 1, 0` in that order. -/
def allAssignments (atoms : List Char) : List (List (Char × Bool)) :=
  ((List.range (2 ^ atoms.length)).reverse).map (fun mask => rowOf atoms mask)

/-! ## The evaluator (`evalNode`, App.tsx lines 216-241)

An assignment that defines every variable is modelled as a total function
`Char → Bool`; the source evaluates both operands and then combines them,
which the pure `Bool` operations below reproduce exactly. -/

def evalNode : FormulaNode → (Char → Bool) → Bool
  | .VAR a, asg => asg a
  | .UNARY c, asg => !evalNode c asg
  | .BINARY .AND l r, asg => evalNode l asg && evalNode r asg
  | .BINARY .OR l r, asg => evalNode l asg || evalNode r asg
  | .BINARY .IMP l r, asg => !evalNode l asg || evalNode r asg
  | .BINARY .BICOND l r, asg => evalNode l asg == evalNode r asg

/-! ## The pretty-printers (`formulaToAscii` / `formulaToUnicode`,
App.tsx lines 245-309)

Both are defined on `List Char` (with `String` wrappers); the exhaustive
match on the four binary operators makes the source's unreachable
`default: opStr = "?"` arm vanish. -/

def opAscii : BinOp → List Char
  | .AND => ['&']
  | .OR => ['v']
  | .IMP => ['-', '>']
  | .BICOND => ['<', '-', '>']

def asciiOf : FormulaNode → List Char
  | .VAR a => [a]
  | .UNARY c => '~' :: asciiOf c
  | .BINARY op l r =>
      '(' :: (asciiOf l ++ (' ' :: opAscii op) ++ (' ' :: asciiOf r) ++ [')'])

def formulaToAscii (t : FormulaNode) : String :=
  String.mk (asciiOf t)

def opUnicode : BinOp → List Char
  | .AND => ['∧']
  | .OR => ['∨']
  | .IMP => ['→']
  | .BICOND => ['↔']

def unicodeOf : FormulaNode → List Char
  | .VAR a => [a]
  | .UNARY c => '¬' :: unicodeOf c
  | .BINARY op l r =>
      '(' :: (unicodeOf l ++ (' ' :: opUnicode op) ++ (' ' :: unicodeOf r) ++ [')'])

def formulaToUnicode (t : FormulaNode) : String :=
  String.mk (unicodeOf t)

/-! ## The subformula collector (`collectSubformulas`, App.tsx lines 314-328)

The source threads a mutable accumulator array and pushes the node after
recursing into its children; the accumulator becomes an explicit list
parameter, with `acc.push(node)` becoming `++ [node]`. -/

def collectSubformulas : FormulaNode → List FormulaNode → List FormulaNode
  | .VAR _, acc => acc
  | .UNARY c, acc => collectSubformulas c acc ++ [.UNARY c]
  | .BINARY op l r, acc =>
      collectSubformulas r (collectSubformulas l acc) ++ [.BINARY op l r]

/-! ## The grammaticality check (`normalizeForGrammar` / `loadFormula`,
App.tsx lines 516-547)

`normalizeForGrammar` chains six global regex replacements; each becomes
one pass over the character list, composed in the source's order.  The
whitespace class of the JS regex `\s` is the usual ECMAScript set. -/

def jsWhitespace (c : Char) : Bool :=
  c = ' ' ∨ c = '\t' ∨ c = '\n' ∨ c = '\r' ∨ c = Char.ofNat 0x0B ∨
    c = Char.ofNat 0x0C ∨ c = Char.ofNat 0xA0 ∨ c = Char.ofNat 0x1680 ∨
    (Char.ofNat 0x2000 ≤ c ∧ c ≤ Char.ofNat 0x200A) ∨
    c = Char.ofNat 0x2028 ∨ c = Char.ofNat 0x2029 ∨ c = Char.ofNat 0x202F ∨
    c = Char.ofNat 0x205F ∨ c = Char.ofNat 0x3000 ∨ c = Char.ofNat 0xFEFF

/-- `.replace(/\s+/g, "")` -/
def stripWs (l : List Char) : List Char :=
  l.filter (fun c => !jsWhitespace c)

/-- `.replace(/¬/g, "~")` -/
def replNeg (l : List Char) : List Char :=
  l.flatMap (fun c => if c = '¬' then ['~'] else [c])

/-- `.replace(/[∧&]/g, "&")` -/
def replAnd (l : List Char) : List Char :=
  l.flatMap (fun c => if c = '∧' ∨ c = '&' then ['&'] else [c])

/-- `.replace(/[∨vV]/g, "v")` -/
def replOr (l : List Char) : List Char :=
  l.flatMap (fun c => if c = '∨' ∨ c = 'v' ∨ c = 'V' then ['v'] else [c])

/-- `.replace(/→/g, "->")` -/
def replImp (l : List Char) : List Char :=
  l.flatMap (fun c => if c = '→' then ['-', '>'] else [c])

/-- `.replace(/↔/g, "<->")` -/
def replBicond (l : List Char) : List Char :=
  l.flatMap (fun c => if c = '↔' then ['<', '-', '>'] else [c])

def normalizeChars (l : List Char) : List Char :=
  replBicond (replImp (replOr (replAnd (replNeg (stripWs l)))))

def normalizeForGrammar (s : String) : String :=
  String.mk (normalizeChars s.data)

/-- The grammaticality decision taken by `loadFormula`: on a successful
parse, warn exactly when the normalized raw input differs from the
normalized canonical ASCII rendering of the parsed AST. -/
def loadFormulaWarning (s : String) : Except String Bool :=
  match parseFormula s with
  | .error e => .error e
  | .ok ast =>
      .ok (normalizeForGrammar s ≠ normalizeForGrammar (formulaToAscii ast))

/-! ## The random formula generator (`generateRandomFormulaString`,
App.tsx lines 330-376)

Every `Math.random()` draw is modelled by consuming one number from an
explicit entropy stream (an arbitrary `List Nat`, with `0` once exhausted),
in the exact order the source draws: the unary/binary coin first, then for
a binary node the left subtree, the right subtree, and finally the
operator; `randInt(min, max)` maps a draw `e` to `min + e % (max - min + 1)`
and the 30% negation coin holds for draws with `e % 10 < 3`. -/

def ATOM_POOL : List Char := ['P', 'Q', 'R', 'S']

/-- Pop one draw from the entropy stream. -/
def popRand : List Nat → Nat × List Nat
  | [] => (0, [])
  | e :: rest => (e, rest)

/-- `randInt(min, max)`, inclusive on both ends, applied to one draw. -/
def randInt (min max e : Nat) : Nat :=
  min + e % (max - min + 1)

/-- `randomAtom`: `atoms[randInt(0, atoms.length - 1)]`. -/
def randomAtom (atoms : List Char) (e : Nat) : Char :=
  atoms.getD (randInt 0 (atoms.length - 1) e) 'P'

/-- `randomBinaryOp`: uniform over `[AND, OR, IMP, BICOND]`. -/
def randomBinaryOp (e : Nat) : BinOp :=
  [BinOp.AND, BinOp.OR, BinOp.IMP, BinOp.BICOND].getD (randInt 0 3 e) .AND

def generateRandomFormulaAST (maxDepth : Nat) (atoms : List Char)
    (rand : List Nat) : FormulaNode × List Nat :=
  match maxDepth with
  | 0 => -- `if (maxDepth <= 0) return Var`
    let p := popRand rand
    (.VAR (randomAtom atoms p.1), p.2)
  | d + 1 =>
    let p := popRand rand
    if p.1 % 10 < 3 then -- `Math.random() < 0.3`
      let child := generateRandomFormulaAST d atoms p.2
      (.UNARY child.1, child.2)
    else
      let left := generateRandomFormulaAST d atoms p.2
      let right := generateRandomFormulaAST d atoms left.2
      let p2 := popRand right.2
      (.BINARY (randomBinaryOp p2.1) left.1 right.1, p2.2)

def generateRandomFormulaString (rand : List Nat) : String :=
  let p1 := popRand rand
  let numAtoms := randInt 2 3 p1.1
  let atoms := ATOM_POOL.take numAtoms
  let p2 := popRand p1.2
  let depth := randInt 1 3 p2.1
  let ast := generateRandomFormulaAST depth atoms p2.2
  formulaToUnicode ast.1

/-! ## Derived definitions used by the statements and proofs -/

/-- The token corresponding to a binary operator. -/
def opTok : BinOp → TokenT
  | .AND => .AND
  | .OR => .OR
  | .IMP => .IMP
  | .BICOND => .BICOND

/-- The token image of a printed formula (both printers tokenize to this). -/
def toks : FormulaNode → List TokenT
  | .VAR a => [.VAR a]
  | .UNARY c => .NOT :: toks c
  | .BINARY op l r => .LPAREN :: (toks l ++ opTok op :: (toks r ++ [.RPAREN]))

/-- Number of nodes of the tree (used as a fuel bound). -/
def nodes : FormulaNode → Nat
  | .VAR _ => 1
  | .UNARY c => nodes c + 1
  | .BINARY _ l r => nodes l + nodes r + 1

/-- Every variable name in the tree is an uppercase ASCII letter; this is an
invariant of every tree the parser or the generator can produce. -/
def upperOk : FormulaNode → Bool
  | .VAR a => 'A' ≤ a ∧ a ≤ 'Z'
  | .UNARY c => upperOk c
  | .BINARY _ l r => upperOk l && upperOk r

def isVar : FormulaNode → Bool
  | .VAR _ => true
  | _ => false

/-- The immediate children of a node. -/
def childrenOf : FormulaNode → List FormulaNode
  | .VAR _ => []
  | .UNARY c => [c]
  | .BINARY _ l r => [l, r]

/-- The post-order list of non-atomic subformulas (the accumulator-free
specification of `collectSubformulas`). -/
def postOrder : FormulaNode → List FormulaNode
  | .VAR _ => []
  | .UNARY c => postOrder c ++ [.UNARY c]
  | .BINARY op l r => postOrder l ++ postOrder r ++ [.BINARY op l r]

/-- Number of `UNARY` and `BINARY` nodes of the tree. -/
def countNonAtomic : FormulaNode → Nat
  | .VAR _ => 0
  | .UNARY c => countNonAtomic c + 1
  | .BINARY _ l r => countNonAtomic l + countNonAtomic r + 1

/-- All subtrees (nodes) of the tree. -/
def subtreesOf : FormulaNode → List FormulaNode
  | .VAR a => [.VAR a]
  | .UNARY c => .UNARY c :: subtreesOf c
  | .BINARY op l r => .BINARY op l r :: (subtreesOf l ++ subtreesOf r)

/-- Every `VAR` token of the list carries an uppercase ASCII letter. -/
def WFtoks (ts : List TokenT) : Prop :=
  ∀ a, TokenT.VAR a ∈ ts → 'A' ≤ a ∧ a ≤ 'Z'

/-- The AST of `(P -> Q) -> R` / `P -> Q -> R` (left-associated chain). -/
def impChainLeft : FormulaNode :=
  .BINARY .IMP (.BINARY .IMP (.VAR 'P') (.VAR 'Q')) (.VAR 'R')

/-- The right-associative reading `P -> (Q -> R)`, which the parser does
not produce. -/
def impChainRight : FormulaNode :=
  .BINARY .IMP (.VAR 'P') (.BINARY .IMP (.VAR 'Q') (.VAR 'R'))

/-- The AST of `P & Q v R` (AND binds tighter than OR). -/
def pqrTree : FormulaNode :=
  .BINARY .OR (.BINARY .AND (.VAR 'P') (.VAR 'Q')) (.VAR 'R')

/-- The AST of `(P ∧ Q) → ¬R`. -/
def pqImpNotR : FormulaNode :=
  .BINARY .IMP (.BINARY .AND (.VAR 'P') (.VAR 'Q')) (.UNARY (.VAR 'R'))

/-- The assignment `{P:true, Q:true, R:false}` as a total function. -/
def asgTTF : Char → Bool :=
  fun c => if c = 'P' then true else if c = 'Q' then true else false

/-- The assignment `{P:true, Q:true, R:true}` as a total function. -/
def asgTTT : Char → Bool :=
  fun c => if c = 'P' then true else if c = 'Q' then true else
    if c = 'R' then true else false

/-- The assignment `{P:false, Q:true, R:false}` as a total function. -/
def asgFTF : Char → Bool :=
  fun c => if c = 'Q' then true else false

/-! ## Lemmas about the tokenizer -/

lemma except_map_map {ε α β γ : Type} (f : α → β) (g : β → γ)
    (e : Except ε α) : (e.map f).map g = e.map (fun a => g (f a)) := by
  cases e <;> rfl

lemma tokenize_space (l : List Char) : tokenize (' ' :: l) = tokenize l := by
  rw [tokenize]; rfl

lemma tokenize_lparen (l : List Char) :
    tokenize ('(' :: l) = (tokenize l).map (fun ts => .LPAREN :: ts) := by
  rw [tokenize]; rfl

lemma tokenize_rparen (l : List Char) :
    tokenize (')' :: l) = (tokenize l).map (fun ts => .RPAREN :: ts) := by
  rw [tokenize]; rfl

lemma tokenize_tilde (l : List Char) :
    tokenize ('~' :: l) = (tokenize l).map (fun ts => .NOT :: ts) := by
  rw [tokenize]; rfl

lemma tokenize_neg (l : List Char) :
    tokenize ('¬' :: l) = (tokenize l).map (fun ts => .NOT :: ts) := by
  rw [tokenize]; rfl

lemma tokenize_amp (l : List Char) :
    tokenize ('&' :: l) = (tokenize l).map (fun ts => .AND :: ts) := by
  rw [tokenize]; rfl

lemma tokenize_wedge (l : List Char) :
    tokenize ('∧' :: l) = (tokenize l).map (fun ts => .AND :: ts) := by
  rw [tokenize]; rfl

lemma tokenize_vee_lower (l : List Char) :
    tokenize ('v' :: l) = (tokenize l).map (fun ts => .OR :: ts) := by
  rw [tokenize]; rfl

lemma tokenize_vee_sym (l : List Char) :
    tokenize ('∨' :: l) = (tokenize l).map (fun ts => .OR :: ts) := by
  rw [tokenize]; rfl

lemma tokenize_arrow_ascii (l : List Char) :
    tokenize ('-' :: '>' :: l) = (tokenize l).map (fun ts => .IMP :: ts) := by
  rw [tokenize]; rfl

lemma tokenize_arrow_sym (l : List Char) :
    tokenize ('→' :: l) = (tokenize l).map (fun ts => .IMP :: ts) := by
  rw [tokenize]; rfl

lemma tokenize_biarrow_ascii (l : List Char) :
    tokenize ('<' :: '-' :: '>' :: l) =
      (tokenize l).map (fun ts => .BICOND :: ts) := by
  rw [tokenize]; rfl

lemma tokenize_biarrow_sym (l : List Char) :
    tokenize ('↔' :: l) = (tokenize l).map (fun ts => .BICOND :: ts) := by
  rw [tokenize]; rfl

lemma tokenize_upper (a : Char) (h : 'A' ≤ a ∧ a ≤ 'Z') (l : List Char) :
    tokenize (a :: l) = (tokenize l).map (fun ts => .VAR a :: ts) := by
  have h1 : ¬(a = ' ' ∨ a = '\t' ∨ a = '\n') := by
    rintro (rfl | rfl | rfl) <;> revert h <;> decide
  rw [tokenize, if_neg h1, if_pos h]

/-- Tokenizing a printed ASCII formula followed by anything splits into the
formula's token image followed by the tokens of the remainder. -/
lemma tokenize_asciiOf_append (t : FormulaNode) (h : upperOk t = true)
    (s : List Char) :
    tokenize (asciiOf t ++ s) = (tokenize s).map (fun ts => toks t ++ ts) := by
  induction t generalizing s with
  | VAR a =>
    simp only [upperOk, decide_eq_true_eq] at h
    simp only [asciiOf, toks, List.cons_append, List.nil_append]
    rw [tokenize_upper a h]
  | UNARY c ih =>
    simp only [upperOk] at h
    simp only [asciiOf, toks, List.cons_append]
    rw [tokenize_tilde, ih h, except_map_map]
  | BINARY op l r ihl ihr =>
    simp only [upperOk, Bool.and_eq_true] at h
    simp only [asciiOf, toks, List.cons_append, List.append_assoc,
      List.nil_append]
    rw [tokenize_lparen, ihl h.1]
    cases op <;>
      simp only [opAscii, opTok, List.cons_append, List.nil_append] <;>
      rw [tokenize_space] <;>
      [rw [tokenize_amp]; rw [tokenize_vee_lower]; rw [tokenize_arrow_ascii];
        rw [tokenize_biarrow_ascii]] <;>
      rw [tokenize_space, ihr h.2, tokenize_rparen] <;>
      simp only [except_map_map] <;>
      (try (congr 1; funext ts; simp [List.append_assoc]))

/-- Same splitting property for the Unicode printer; it has the same token
image. -/
lemma tokenize_unicodeOf_append (t : FormulaNode) (h : upperOk t = true)
    (s : List Char) :
    tokenize (unicodeOf t ++ s) = (tokenize s).map (fun ts => toks t ++ ts) := by
  induction t generalizing s with
  | VAR a =>
    simp only [upperOk, decide_eq_true_eq] at h
    simp only [unicodeOf, toks, List.cons_append, List.nil_append]
    rw [tokenize_upper a h]
  | UNARY c ih =>
    simp only [upperOk] at h
    simp only [unicodeOf, toks, List.cons_append]
    rw [tokenize_neg, ih h, except_map_map]
  | BINARY op l r ihl ihr =>
    simp only [upperOk, Bool.and_eq_true] at h
    simp only [unicodeOf, toks, List.cons_append, List.append_assoc,
      List.nil_append]
    rw [tokenize_lparen, ihl h.1]
    cases op <;>
      simp only [opUnicode, opTok, List.cons_append, List.nil_append] <;>
      rw [tokenize_space] <;>
      [rw [tokenize_wedge]; rw [tokenize_vee_sym]; rw [tokenize_arrow_sym];
        rw [tokenize_biarrow_sym]] <;>
      rw [tokenize_space, ihr h.2, tokenize_rparen] <;>
      simp only [except_map_map] <;>
      (try (congr 1; funext ts; simp [List.append_assoc]))

/-- Tokenizing a printed ASCII formula yields exactly its token image. -/
lemma tokenize_asciiOf (t : FormulaNode) (h : upperOk t = true) :
    tokenize (asciiOf t) = .ok (toks t) := by
  have := tokenize_asciiOf_append t h []
  simpa [tokenize, Except.map] using this

/-- Tokenizing a printed Unicode formula yields exactly its token image. -/
lemma tokenize_unicodeOf (t : FormulaNode) (h : upperOk t = true) :
    tokenize (unicodeOf t) = .ok (toks t) := by
  have := tokenize_unicodeOf_append t h []
  simpa [tokenize, Except.map] using this

/-! ## Lemmas about the parser: parsing a printed token image

`parse_toks` below is the heart of the print/parse round-trip: the token
image of any tree, followed by any remainder, parses back to exactly that
tree, leaving the remainder unconsumed. -/

lemma fuel_pos_unary {f : Nat} {ts : List TokenT} {r : FormulaNode × List TokenT}
    (h : parseUnary f ts = .ok r) : ∃ g, f = g + 1 := by
  cases f with
  | zero => exact absurd h (by simp [parseUnary])
  | succ g => exact ⟨g, rfl⟩

lemma fuel_pos_and {f : Nat} {ts : List TokenT} {r : FormulaNode × List TokenT}
    (h : parseAnd f ts = .ok r) : ∃ g, f = g + 1 := by
  cases f with
  | zero => exact absurd h (by simp [parseAnd])
  | succ g => exact ⟨g, rfl⟩

lemma fuel_pos_or {f : Nat} {ts : List TokenT} {r : FormulaNode × List TokenT}
    (h : parseOr f ts = .ok r) : ∃ g, f = g + 1 := by
  cases f with
  | zero => exact absurd h (by simp [parseOr])
  | succ g => exact ⟨g, rfl⟩

lemma fuel_pos_imp {f : Nat} {ts : List TokenT} {r : FormulaNode × List TokenT}
    (h : parseImp f ts = .ok r) : ∃ g, f = g + 1 := by
  cases f with
  | zero => exact absurd h (by simp [parseImp])
  | succ g => exact ⟨g, rfl⟩

lemma parseAndAux_stop {f : Nat} {n : FormulaNode} {ts : List TokenT}
    (h : ts.head? ≠ some .AND) : parseAndAux (f + 1) n ts = .ok (n, ts) := by
  cases ts with
  | nil => rfl
  | cons t rest => cases t <;> first | rfl | exact absurd rfl h

lemma parseOrAux_stop {f : Nat} {n : FormulaNode} {ts : List TokenT}
    (h : ts.head? ≠ some .OR) : parseOrAux (f + 1) n ts = .ok (n, ts) := by
  cases ts with
  | nil => rfl
  | cons t rest => cases t <;> first | rfl | exact absurd rfl h

lemma parseImpAux_stop {f : Nat} {n : FormulaNode} {ts : List TokenT}
    (h : ts.head? ≠ some .IMP) : parseImpAux (f + 1) n ts = .ok (n, ts) := by
  cases ts with
  | nil => rfl
  | cons t rest => cases t <;> first | rfl | exact absurd rfl h

lemma parseBicondAux_stop {f : Nat} {n : FormulaNode} {ts : List TokenT}
    (h : ts.head? ≠ some .BICOND) : parseBicondAux (f + 1) n ts = .ok (n, ts) := by
  cases ts with
  | nil => rfl
  | cons t rest => cases t <;> first | rfl | exact absurd rfl h

/-- If the unary level parses a prefix and the next token is not `AND`, the
AND level parses the same prefix (its loop body never runs). -/
lemma parseAnd_of_unary {f : Nat} {ts : List TokenT} {t : FormulaNode}
    {rest : List TokenT} (h : parseUnary f ts = .ok (t, rest))
    (hA : rest.head? ≠ some .AND) : parseAnd (f + 1) ts = .ok (t, rest) := by
  obtain ⟨g, rfl⟩ := fuel_pos_unary h
  rw [parseAnd, h]
  exact parseAndAux_stop hA

lemma parseOr_of_and {f : Nat} {ts : List TokenT} {t : FormulaNode}
    {rest : List TokenT} (h : parseAnd f ts = .ok (t, rest))
    (hO : rest.head? ≠ some .OR) : parseOr (f + 1) ts = .ok (t, rest) := by
  obtain ⟨g, rfl⟩ := fuel_pos_and h
  rw [parseOr, h]
  exact parseOrAux_stop hO

lemma parseImp_of_or {f : Nat} {ts : List TokenT} {t : FormulaNode}
    {rest : List TokenT} (h : parseOr f ts = .ok (t, rest))
    (hI : rest.head? ≠ some .IMP) : parseImp (f + 1) ts = .ok (t, rest) := by
  obtain ⟨g, rfl⟩ := fuel_pos_or h
  rw [parseImp, h]
  exact parseImpAux_stop hI

lemma parseBicond_of_imp {f : Nat} {ts : List TokenT} {t : FormulaNode}
    {rest : List TokenT} (h : parseImp f ts = .ok (t, rest))
    (hB : rest.head? ≠ some .BICOND) : parseBicond (f + 1) ts = .ok (t, rest) := by
  obtain ⟨g, rfl⟩ := fuel_pos_imp h
  rw [parseBicond, h]
  exact parseBicondAux_stop hB

/-- Pass from the unary level all the way to the top-level production when
none of the four binary connectives follows. -/
lemma parseBicond_of_unary {f : Nat} {ts : List TokenT} {t : FormulaNode}
    {rest : List TokenT} (h : parseUnary f ts = .ok (t, rest))
    (hA : rest.head? ≠ some .AND) (hO : rest.head? ≠ some .OR)
    (hI : rest.head? ≠ some .IMP) (hB : rest.head? ≠ some .BICOND) :
    parseBicond (f + 4) ts = .ok (t, rest) :=
  parseBicond_of_imp (parseImp_of_or (parseOr_of_and (parseAnd_of_unary h hA) hO) hI) hB

/-- One iteration of the AND loop followed by loop exit. -/
lemma parseAndAux_step {f : Nat} {rest rest2 : List TokenT}
    {r : FormulaNode} (n : FormulaNode)
    (h : parseUnary f rest = .ok (r, rest2)) (h2 : rest2.head? ≠ some .AND) :
    parseAndAux (f + 1) n (.AND :: rest) = .ok (.BINARY .AND n r, rest2) := by
  obtain ⟨g, rfl⟩ := fuel_pos_unary h
  rw [parseAndAux, h]
  exact parseAndAux_stop h2

lemma parseOrAux_step {f : Nat} {rest rest2 : List TokenT}
    {r : FormulaNode} (n : FormulaNode)
    (h : parseAnd f rest = .ok (r, rest2)) (h2 : rest2.head? ≠ some .OR) :
    parseOrAux (f + 1) n (.OR :: rest) = .ok (.BINARY .OR n r, rest2) := by
  obtain ⟨g, rfl⟩ := fuel_pos_and h
  rw [parseOrAux, h]
  exact parseOrAux_stop h2

lemma parseImpAux_step {f : Nat} {rest rest2 : List TokenT}
    {r : FormulaNode} (n : FormulaNode)
    (h : parseOr f rest = .ok (r, rest2)) (h2 : rest2.head? ≠ some .IMP) :
    parseImpAux (f + 1) n (.IMP :: rest) = .ok (.BINARY .IMP n r, rest2) := by
  obtain ⟨g, rfl⟩ := fuel_pos_or h
  rw [parseImpAux, h]
  exact parseImpAux_stop h2

lemma parseBicondAux_step {f : Nat} {rest rest2 : List TokenT}
    {r : FormulaNode} (n : FormulaNode)
    (h : parseImp f rest = .ok (r, rest2)) (h2 : rest2.head? ≠ some .BICOND) :
    parseBicondAux (f + 1) n (.BICOND :: rest) = .ok (.BINARY .BICOND n r, rest2) := by
  obtain ⟨g, rfl⟩ := fuel_pos_imp h
  rw [parseBicondAux, h]
  exact parseBicondAux_stop h2

/-- Parsing the token image of any tree (with enough fuel) succeeds,
returns exactly that tree, and consumes exactly the image. -/
lemma parse_toks (t : FormulaNode) : ∀ (f : Nat) (rest : List TokenT),
    8 * nodes t ≤ f → parseUnary f (toks t ++ rest) = .ok (t, rest) := by
  induction t with
  | VAR a =>
    intro f rest hf
    obtain ⟨g, rfl⟩ : ∃ g, f = g + 2 := ⟨f - 2, by simp [nodes] at hf; omega⟩
    simp [toks, parseUnary, parsePrimary]
  | UNARY c ih =>
    intro f rest hf
    simp only [nodes] at hf
    obtain ⟨g, rfl⟩ : ∃ g, f = g + 1 := ⟨f - 1, by omega⟩
    have hc := ih g rest (by omega)
    simp [toks, parseUnary, hc]
  | BINARY op l r ihl ihr =>
    intro f rest hf
    simp only [nodes] at hf
    obtain ⟨g, rfl⟩ : ∃ g, f = g + 2 := ⟨f - 2, by omega⟩
    have hsh : toks (.BINARY op l r) ++ rest =
        .LPAREN :: (toks l ++ opTok op :: (toks r ++ .RPAREN :: rest)) := by
      simp [toks]
    rw [hsh]
    have hbic : parseBicond g (toks l ++ opTok op :: (toks r ++ .RPAREN :: rest)) =
        .ok (.BINARY op l r, .RPAREN :: rest) := by
      cases op with
      | AND =>
        obtain ⟨j, rfl⟩ : ∃ j, g = j + 5 := ⟨g - 5, by omega⟩
        have hl := ihl (j + 1) (.AND :: (toks r ++ .RPAREN :: rest)) (by omega)
        have hr := ihr j (.RPAREN :: rest) (by omega)
        have hstep := parseAndAux_step l hr (by simp)
        have hand : parseAnd (j + 2) (toks l ++ .AND :: (toks r ++ .RPAREN :: rest)) =
            .ok (.BINARY .AND l r, .RPAREN :: rest) := by
          rw [parseAnd, hl]; exact hstep
        exact parseBicond_of_imp
          (parseImp_of_or (parseOr_of_and hand (by simp)) (by simp)) (by simp)
      | OR =>
        obtain ⟨m, rfl⟩ : ∃ m, g = m + 4 := ⟨g - 4, by omega⟩
        obtain ⟨x, hx⟩ : ∃ x, m = x + 1 := ⟨m - 1, by omega⟩
        have hl := ihl m (.OR :: (toks r ++ .RPAREN :: rest)) (by omega)
        have hr := ihr x (.RPAREN :: rest) (by omega)
        have hand_l := parseAnd_of_unary hl (by simp)
        have hand_r := parseAnd_of_unary hr (by simp)
        have hstep := parseOrAux_step l (hx ▸ hand_r) (by simp)
        have hor : parseOr (m + 2) (toks l ++ .OR :: (toks r ++ .RPAREN :: rest)) =
            .ok (.BINARY .OR l r, .RPAREN :: rest) := by
          rw [parseOr, hand_l]; exact hstep
        exact parseBicond_of_imp (parseImp_of_or hor (by simp)) (by simp)
      | IMP =>
        obtain ⟨m, rfl⟩ : ∃ m, g = m + 4 := ⟨g - 4, by omega⟩
        obtain ⟨x, hx⟩ : ∃ x, m = x + 1 := ⟨m - 1, by omega⟩
        have hl := ihl m (.IMP :: (toks r ++ .RPAREN :: rest)) (by omega)
        have hr := ihr x (.RPAREN :: rest) (by omega)
        have hor_l := parseOr_of_and (parseAnd_of_unary hl (by simp)) (by simp)
        have hor_r := parseOr_of_and (parseAnd_of_unary hr (by simp)) (by simp)
        have hstep := parseImpAux_step l (hx ▸ hor_r) (by simp)
        have himp : parseImp (m + 3) (toks l ++ .IMP :: (toks r ++ .RPAREN :: rest)) =
            .ok (.BINARY .IMP l r, .RPAREN :: rest) := by
          rw [parseImp, hor_l]; exact hstep
        exact parseBicond_of_imp himp (by simp)
      | BICOND =>
        obtain ⟨m, rfl⟩ : ∃ m, g = m + 4 := ⟨g - 4, by omega⟩
        obtain ⟨x, hx⟩ : ∃ x, m = x + 1 := ⟨m - 1, by omega⟩
        have hl := ihl m (.BICOND :: (toks r ++ .RPAREN :: rest)) (by omega)
        have hr := ihr x (.RPAREN :: rest) (by omega)
        have himp_l := parseImp_of_or
          (parseOr_of_and (parseAnd_of_unary hl (by simp)) (by simp)) (by simp)
        have himp_r := parseImp_of_or
          (parseOr_of_and (parseAnd_of_unary hr (by simp)) (by simp)) (by simp)
        have hstep := parseBicondAux_step l (hx ▸ himp_r) (by simp)
        have himp_l3 : parseImp (m + 3)
            (toks l ++ TokenT.BICOND :: (toks r ++ TokenT.RPAREN :: rest)) =
            .ok (l, TokenT.BICOND :: (toks r ++ TokenT.RPAREN :: rest)) := himp_l
        have hfin : parseBicond (m + 4)
            (toks l ++ TokenT.BICOND :: (toks r ++ TokenT.RPAREN :: rest)) =
            .ok (.BINARY .BICOND l r, .RPAREN :: rest) := by
          rw [parseBicond, himp_l3]
          exact hstep
        exact hfin
    have hprim : parsePrimary (g + 1)
        (.LPAREN :: (toks l ++ opTok op :: (toks r ++ .RPAREN :: rest))) =
        .ok (.BINARY op l r, rest) := by
      rw [parsePrimary, hbic]
    simp [parseUnary, hprim]

lemma nodes_le_toks_length (t : FormulaNode) : nodes t ≤ (toks t).length := by
  induction t with
  | VAR a => simp [nodes, toks]
  | UNARY c ih => simp [nodes, toks]; omega
  | BINARY op l r ihl ihr => simp [nodes, toks]; omega

/-- Round trip through the canonical ASCII printer: printing any tree with
uppercase variable names and re-parsing returns the same tree. -/
lemma parseFormula_ascii (t : FormulaNode) (h : upperOk t = true) :
    parseFormula (formulaToAscii t) = .ok t := by
  have htok : tokenizeStr (formulaToAscii t) = .ok (toks t) := by
    unfold tokenizeStr formulaToAscii
    exact tokenize_asciiOf t h
  have hu := parse_toks t (8 * (toks t).length + 4) []
    (by have := nodes_le_toks_length t; omega)
  rw [List.append_nil] at hu
  have hb : parseBicond (8 * (toks t).length + 8) (toks t) = .ok (t, []) :=
    parseBicond_of_unary hu (by simp) (by simp) (by simp) (by simp)
  unfold parseFormula
  rw [htok]
  show (match parseBicond (8 * (toks t).length + 8) (toks t) with
    | Except.error e => Except.error e
    | Except.ok (root, rest) =>
      if rest = [] then Except.ok root
      else Except.error "Extra tokens at end of input") = Except.ok t
  rw [hb]
  rfl

/-- Round trip through the Unicode printer. -/
lemma parseFormula_unicode (t : FormulaNode) (h : upperOk t = true) :
    parseFormula (formulaToUnicode t) = .ok t := by
  have htok : tokenizeStr (formulaToUnicode t) = .ok (toks t) := by
    unfold tokenizeStr formulaToUnicode
    exact tokenize_unicodeOf t h
  have hu := parse_toks t (8 * (toks t).length + 4) []
    (by have := nodes_le_toks_length t; omega)
  rw [List.append_nil] at hu
  have hb : parseBicond (8 * (toks t).length + 8) (toks t) = .ok (t, []) :=
    parseBicond_of_unary hu (by simp) (by simp) (by simp) (by simp)
  unfold parseFormula
  rw [htok]
  show (match parseBicond (8 * (toks t).length + 8) (toks t) with
    | Except.error e => Except.error e
    | Except.ok (root, rest) =>
      if rest = [] then Except.ok root
      else Except.error "Extra tokens at end of input") = Except.ok t
  rw [hb]
  rfl

/-! ## Well-formedness: parsed trees have uppercase variable names -/

lemma WFtoks_nil : WFtoks [] := by
  intro a ha
  cases ha

lemma WFtoks_cons {tok : TokenT} {ts : List TokenT} (h : WFtoks (tok :: ts)) :
    WFtoks ts :=
  fun a ha => h a (List.mem_cons_of_mem _ ha)

lemma WFtoks_cons_of {tok : TokenT} {ts : List TokenT}
    (h1 : ∀ a, tok = .VAR a → 'A' ≤ a ∧ a ≤ 'Z') (h2 : WFtoks ts) :
    WFtoks (tok :: ts) := by
  intro a ha
  rcases List.mem_cons.mp ha with h | h
  · exact h1 a h.symm
  · exact h2 a h

lemma WFtoks_var {a : Char} {ts : List TokenT} (h : WFtoks (.VAR a :: ts)) :
    'A' ≤ a ∧ a ≤ 'Z' :=
  h a (List.mem_cons_self _ _)

/-- Analysis of the common shape `(tokenize cs).map (cons of one token)`. -/
lemma WFtoks_of_map_cons {cs : List Char} {ts : List TokenT} {tok : TokenT}
    (hcs : ∀ ts2, tokenize cs = .ok ts2 → WFtoks ts2)
    (htok : ∀ a, tok = .VAR a → 'A' ≤ a ∧ a ≤ 'Z')
    (h : (tokenize cs).map (fun ts2 => tok :: ts2) = .ok ts) : WFtoks ts := by
  rcases hmap : tokenize cs with e | ts2
  · rw [hmap] at h
    cases h
  · rw [hmap] at h
    cases h
    exact WFtoks_cons_of htok (hcs ts2 hmap)

set_option maxHeartbeats 2000000 in
/-- Every token list the tokenizer produces carries only uppercase variable
names (the `VAR` branch is guarded by the uppercase test). -/
lemma tokenize_wf_aux : ∀ (n : Nat) (l : List Char), l.length ≤ n →
    (∀ ts, tokenize l = .ok ts → WFtoks ts) ∧
    (∀ ts, tokenizeAfterDash l = .ok ts → WFtoks ts) ∧
    (∀ ts, tokenizeAfterLess l = .ok ts → WFtoks ts) ∧
    (∀ ts, tokenizeAfterLessDash l = .ok ts → WFtoks ts) := by
  intro n
  induction n with
  | zero =>
    intro l hl
    have : l = [] := List.eq_nil_of_length_eq_zero (Nat.le_zero.mp hl)
    subst this
    refine ⟨?_, ?_, ?_, ?_⟩
    · intro ts h
      cases h
      exact WFtoks_nil
    · intro ts h
      cases h
    · intro ts h
      cases h
    · intro ts h
      cases h
  | succ n ih =>
    intro l hl
    cases l with
    | nil =>
      refine ⟨?_, ?_, ?_, ?_⟩
      · intro ts h
        cases h
        exact WFtoks_nil
      · intro ts h
        cases h
      · intro ts h
        cases h
      · intro ts h
        cases h
    | cons c cs =>
      have hcs : cs.length ≤ n := by
        simp only [List.length_cons] at hl
        omega
      refine ⟨?_, ?_, ?_, ?_⟩
      · intro ts h
        rw [tokenize] at h
        split_ifs at h with h1 h2 h3 h4 h5 h6 h7 h8 h9 h10 h11
        · exact (ih cs hcs).1 ts h
        · exact WFtoks_of_map_cons ((ih cs hcs).1)
            (by intro a ha; cases ha; exact h2) h
        · exact WFtoks_of_map_cons ((ih cs hcs).1) (by intro a ha; cases ha) h
        · exact WFtoks_of_map_cons ((ih cs hcs).1) (by intro a ha; cases ha) h
        · exact WFtoks_of_map_cons ((ih cs hcs).1) (by intro a ha; cases ha) h
        · exact WFtoks_of_map_cons ((ih cs hcs).1) (by intro a ha; cases ha) h
        · exact WFtoks_of_map_cons ((ih cs hcs).1) (by intro a ha; cases ha) h
        · exact (ih cs hcs).2.1 ts h
        · exact WFtoks_of_map_cons ((ih cs hcs).1) (by intro a ha; cases ha) h
        · exact (ih cs hcs).2.2.1 ts h
        · exact WFtoks_of_map_cons ((ih cs hcs).1) (by intro a ha; cases ha) h
      · intro ts h
        rw [tokenizeAfterDash] at h
        split_ifs at h with hgt
        exact WFtoks_of_map_cons ((ih cs hcs).1) (by intro a ha; cases ha) h
      · intro ts h
        rw [tokenizeAfterLess] at h
        split_ifs at h with hdash
        exact (ih cs hcs).2.2.2 ts h
      · intro ts h
        rw [tokenizeAfterLessDash] at h
        split_ifs at h with hgt2
        exact WFtoks_of_map_cons ((ih cs hcs).1) (by intro a ha; cases ha) h

lemma tokenize_wf {l : List Char} {ts : List TokenT}
    (h : tokenize l = .ok ts) : WFtoks ts :=
  (tokenize_wf_aux l.length l le_rfl).1 ts h

/-- Every tree any parse level produces from a well-formed token list has
uppercase variable names, and the unconsumed remainder is well formed. -/
lemma parse_wf : ∀ f : Nat,
    (∀ ts t rest, WFtoks ts → parsePrimary f ts = .ok (t, rest) →
      upperOk t = true ∧ WFtoks rest) ∧
    (∀ ts t rest, WFtoks ts → parseUnary f ts = .ok (t, rest) →
      upperOk t = true ∧ WFtoks rest) ∧
    (∀ ts t rest, WFtoks ts → parseAnd f ts = .ok (t, rest) →
      upperOk t = true ∧ WFtoks rest) ∧
    (∀ n ts t rest, WFtoks ts → upperOk n = true →
      parseAndAux f n ts = .ok (t, rest) → upperOk t = true ∧ WFtoks rest) ∧
    (∀ ts t rest, WFtoks ts → parseOr f ts = .ok (t, rest) →
      upperOk t = true ∧ WFtoks rest) ∧
    (∀ n ts t rest, WFtoks ts → upperOk n = true →
      parseOrAux f n ts = .ok (t, rest) → upperOk t = true ∧ WFtoks rest) ∧
    (∀ ts t rest, WFtoks ts → parseImp f ts = .ok (t, rest) →
      upperOk t = true ∧ WFtoks rest) ∧
    (∀ n ts t rest, WFtoks ts → upperOk n = true →
      parseImpAux f n ts = .ok (t, rest) → upperOk t = true ∧ WFtoks rest) ∧
    (∀ ts t rest, WFtoks ts → parseBicond f ts = .ok (t, rest) →
      upperOk t = true ∧ WFtoks rest) ∧
    (∀ n ts t rest, WFtoks ts → upperOk n = true →
      parseBicondAux f n ts = .ok (t, rest) → upperOk t = true ∧ WFtoks rest) := by
  intro f
  induction f with
  | zero =>
    refine ⟨?_, ?_, ?_, ?_, ?_, ?_, ?_, ?_, ?_, ?_⟩
    · intro ts t rest hwf h
      exact Except.noConfusion h
    · intro ts t rest hwf h
      exact Except.noConfusion h
    · intro ts t rest hwf h
      exact Except.noConfusion h
    · intro n ts t rest hwf hn h
      exact Except.noConfusion h
    · intro ts t rest hwf h
      exact Except.noConfusion h
    · intro n ts t rest hwf hn h
      exact Except.noConfusion h
    · intro ts t rest hwf h
      exact Except.noConfusion h
    · intro n ts t rest hwf hn h
      exact Except.noConfusion h
    · intro ts t rest hwf h
      exact Except.noConfusion h
    · intro n ts t rest hwf hn h
      exact Except.noConfusion h
  | succ f ih =>
    obtain ⟨ihP, ihU, ihA, ihAx, ihO, ihOx, ihI, ihIx, ihB, ihBx⟩ := ih
    refine ⟨?_, ?_, ?_, ?_, ?_, ?_, ?_, ?_, ?_, ?_⟩
    · -- parsePrimary
      intro ts t rest hwf h
      cases ts with
      | nil => exact Except.noConfusion h
      | cons tok l =>
        cases tok
        case VAR a =>
          have h2 : Except.ok (FormulaNode.VAR a, l) = Except.ok (t, rest) := h
          cases h2
          exact ⟨by simpa [upperOk] using WFtoks_var hwf, WFtoks_cons hwf⟩
        case LPAREN =>
          rw [parsePrimary] at h
          rcases hb : parseBicond f l with e | ⟨inside, rest2⟩ <;> rw [hb] at h
          · cases h
          · obtain ⟨hio, hwf2⟩ := ihB l inside rest2 (WFtoks_cons hwf) hb
            rcases rest2 with _ | ⟨tok2, l2⟩
            · cases h
            · cases tok2 <;> (cases h; try exact ⟨hio, WFtoks_cons hwf2⟩)
        all_goals exact Except.noConfusion h
    · -- parseUnary
      intro ts t rest hwf h
      cases ts with
      | nil => exact ihP [] t rest hwf h
      | cons tok l =>
        cases tok
        case NOT =>
          rw [parseUnary] at h
          rcases hu : parseUnary f l with e | ⟨child, rest2⟩ <;> rw [hu] at h
          · cases h
          · cases h
            obtain ⟨hc, hw⟩ := ihU l child rest (WFtoks_cons hwf) hu
            exact ⟨hc, hw⟩
        all_goals exact ihP _ t rest hwf h
    · -- parseAnd
      intro ts t rest hwf h
      rw [parseAnd] at h
      rcases hu : parseUnary f ts with e | ⟨n1, rest1⟩ <;> rw [hu] at h
      · cases h
      · obtain ⟨hn, hw1⟩ := ihU ts n1 rest1 hwf hu
        exact ihAx n1 rest1 t rest hw1 hn h
    · -- parseAndAux
      intro n ts t rest hwf hn h
      cases ts with
      | nil =>
        cases h
        exact ⟨hn, hwf⟩
      | cons tok l =>
        cases tok
        case AND =>
          rw [parseAndAux] at h
          rcases hu : parseUnary f l with e | ⟨right, rest2⟩ <;> rw [hu] at h
          · cases h
          · obtain ⟨hr, hw2⟩ := ihU l right rest2 (WFtoks_cons hwf) hu
            exact ihAx (.BINARY .AND n right) rest2 t rest hw2
              (by simp [upperOk, hn, hr]) h
        all_goals (cases h; exact ⟨hn, hwf⟩)
    · -- parseOr
      intro ts t rest hwf h
      rw [parseOr] at h
      rcases ha : parseAnd f ts with e | ⟨n1, rest1⟩ <;> rw [ha] at h
      · cases h
      · obtain ⟨hn, hw1⟩ := ihA ts n1 rest1 hwf ha
        exact ihOx n1 rest1 t rest hw1 hn h
    · -- parseOrAux
      intro n ts t rest hwf hn h
      cases ts with
      | nil =>
        cases h
        exact ⟨hn, hwf⟩
      | cons tok l =>
        cases tok
        case OR =>
          rw [parseOrAux] at h
          rcases ha : parseAnd f l with e | ⟨right, rest2⟩ <;> rw [ha] at h
          · cases h
          · obtain ⟨hr, hw2⟩ := ihA l right rest2 (WFtoks_cons hwf) ha
            exact ihOx (.BINARY .OR n right) rest2 t rest hw2
              (by simp [upperOk, hn, hr]) h
        all_goals (cases h; exact ⟨hn, hwf⟩)
    · -- parseImp
      intro ts t rest hwf h
      rw [parseImp] at h
      rcases ho : parseOr f ts with e | ⟨n1, rest1⟩ <;> rw [ho] at h
      · cases h
      · obtain ⟨hn, hw1⟩ := ihO ts n1 rest1 hwf ho
        exact ihIx n1 rest1 t rest hw1 hn h
    · -- parseImpAux
      intro n ts t rest hwf hn h
      cases ts with
      | nil =>
        cases h
        exact ⟨hn, hwf⟩
      | cons tok l =>
        cases tok
        case IMP =>
          rw [parseImpAux] at h
          rcases ho : parseOr f l with e | ⟨right, rest2⟩ <;> rw [ho] at h
          · cases h
          · obtain ⟨hr, hw2⟩ := ihO l right rest2 (WFtoks_cons hwf) ho
            exact ihIx (.BINARY .IMP n right) rest2 t rest hw2
              (by simp [upperOk, hn, hr]) h
        all_goals (cases h; exact ⟨hn, hwf⟩)
    · -- parseBicond
      intro ts t rest hwf h
      rw [parseBicond] at h
      rcases hi : parseImp f ts with e | ⟨n1, rest1⟩ <;> rw [hi] at h
      · cases h
      · obtain ⟨hn, hw1⟩ := ihI ts n1 rest1 hwf hi
        exact ihBx n1 rest1 t rest hw1 hn h
    · -- parseBicondAux
      intro n ts t rest hwf hn h
      cases ts with
      | nil =>
        cases h
        exact ⟨hn, hwf⟩
      | cons tok l =>
        cases tok
        case BICOND =>
          rw [parseBicondAux] at h
          rcases hi : parseImp f l with e | ⟨right, rest2⟩ <;> rw [hi] at h
          · cases h
          · obtain ⟨hr, hw2⟩ := ihI l right rest2 (WFtoks_cons hwf) hi
            exact ihBx (.BINARY .BICOND n right) rest2 t rest hw2
              (by simp [upperOk, hn, hr]) h
        all_goals (cases h; exact ⟨hn, hwf⟩)

/-- Any tree returned by `parseFormula` has uppercase variable names. -/
lemma parseFormula_wf {s : String} {t : FormulaNode}
    (h : parseFormula s = .ok t) : upperOk t = true := by
  unfold parseFormula at h
  rcases htok : tokenizeStr s with e | toksl
  · rw [htok] at h
    cases h
  · rw [htok] at h
    have h2 : (match parseBicond (8 * toksl.length + 8) toksl with
      | Except.error e => Except.error e
      | Except.ok (root, rest) =>
        if rest = [] then Except.ok root
        else Except.error "Extra tokens at end of input") = Except.ok t := h
    rcases hb : parseBicond (8 * toksl.length + 8) toksl with e | ⟨root, rest⟩ <;>
      rw [hb] at h2
    · cases h2
    · have h3 : (if rest = [] then Except.ok root
          else Except.error "Extra tokens at end of input") = Except.ok t := h2
      split_ifs at h3 with hr
      cases h3
      subst hr
      exact ((parse_wf (8 * toksl.length + 8)).2.2.2.2.2.2.2.2.1 toksl t
        [] (tokenize_wf htok) hb).1

/-! ## Lemmas about the assignment enumerator -/

lemma rowOfAux_map_fst (n mask : Nat) :
    ∀ (as : List Char) (i : Nat), (rowOfAux n mask as i).map Prod.fst = as := by
  intro as
  induction as with
  | nil => intro i; rfl
  | cons a as ih =>
    intro i
    simp [rowOfAux, ih]

lemma rowOfAux_length (n mask : Nat) :
    ∀ (as : List Char) (i : Nat), (rowOfAux n mask as i).length = as.length := by
  intro as
  induction as with
  | nil => intro i; rfl
  | cons a as ih =>
    intro i
    simp [rowOfAux, ih]

lemma rowOfAux_getElem (n mask : Nat) :
    ∀ (as : List Char) (i j : Nat) (hj : j < as.length)
      (hj2 : j < (rowOfAux n mask as i).length),
      (rowOfAux n mask as i)[j] =
        (as[j], mask.testBit (n - 1 - (i + j))) := by
  intro as
  induction as with
  | nil =>
    intro i j hj
    cases hj
  | cons a as ih =>
    intro i j hj hj2
    cases j with
    | zero => simp [rowOfAux]
    | succ j =>
      have hjl : j < as.length := by simpa using hj
      have hjl2 : j < (rowOfAux n mask as (i + 1)).length := by
        rw [rowOfAux_length]
        exact hjl
      have := ih (i + 1) j hjl hjl2
      simp only [rowOfAux, List.getElem_cons_succ, this]
      congr 2
      omega

lemma rowOf_length (atoms : List Char) (mask : Nat) :
    (rowOf atoms mask).length = atoms.length :=
  rowOfAux_length _ _ _ _

lemma rowOf_map_fst (atoms : List Char) (mask : Nat) :
    (rowOf atoms mask).map Prod.fst = atoms :=
  rowOfAux_map_fst _ _ _ _

lemma rowOf_getElem (atoms : List Char) (mask : Nat) (j : Nat)
    (hj : j < atoms.length) (hj2 : j < (rowOf atoms mask).length) :
    (rowOf atoms mask)[j] =
      (atoms[j], mask.testBit (atoms.length - 1 - j)) := by
  have := rowOfAux_getElem atoms.length mask atoms 0 j hj hj2
  simpa [rowOf] using this

/-- Two masks below `2 ^ n` that build the same row are equal: the row
determines every low bit, and the high bits of both are zero. -/
lemma rowOf_inj {atoms : List Char} {m1 m2 : Nat}
    (h1 : m1 < 2 ^ atoms.length) (h2 : m2 < 2 ^ atoms.length)
    (h : rowOf atoms m1 = rowOf atoms m2) : m1 = m2 := by
  apply Nat.eq_of_testBit_eq
  intro k
  by_cases hk : k < atoms.length
  · have hj : atoms.length - 1 - k < atoms.length := by omega
    have hl1 : atoms.length - 1 - k < (rowOf atoms m1).length := by
      rw [rowOf_length]; exact hj
    have hl2 : atoms.length - 1 - k < (rowOf atoms m2).length := by
      rw [rowOf_length]; exact hj
    have e1 : (rowOf atoms m1)[atoms.length - 1 - k]? =
        some (atoms[atoms.length - 1 - k],
          m1.testBit (atoms.length - 1 - (atoms.length - 1 - k))) := by
      rw [List.getElem?_eq_getElem hl1, rowOf_getElem atoms m1 _ hj hl1]
    have e2 : (rowOf atoms m2)[atoms.length - 1 - k]? =
        some (atoms[atoms.length - 1 - k],
          m2.testBit (atoms.length - 1 - (atoms.length - 1 - k))) := by
      rw [List.getElem?_eq_getElem hl2, rowOf_getElem atoms m2 _ hj hl2]
    have hq := congrArg (fun l : List (Char × Bool) =>
      l[atoms.length - 1 - k]?) h
    simp only at hq
    rw [e1, e2] at hq
    have hpair := Option.some.inj hq
    have hbit := (Prod.mk.injEq _ _ _ _).mp hpair |>.2
    have hkk : atoms.length - 1 - (atoms.length - 1 - k) = k := by omega
    rw [hkk] at hbit
    exact hbit
  · have e1 : m1.testBit k = false :=
      Nat.testBit_eq_false_of_lt (lt_of_lt_of_le h1 (Nat.pow_le_pow_right (by omega) (by omega)))
    have e2 : m2.testBit k = false :=
      Nat.testBit_eq_false_of_lt (lt_of_lt_of_le h2 (Nat.pow_le_pow_right (by omega) (by omega)))
    rw [e1, e2]

lemma allAssignments_length (atoms : List Char) :
    (allAssignments atoms).length = 2 ^ atoms.length := by
  simp [allAssignments]

/-- Row `j` of the table is the row built for mask `2 ^ n - 1 - j`:
the masks descend from all-ones to zero. -/
lemma allAssignments_getElem (atoms : List Char) (j : Nat)
    (hj : j < 2 ^ atoms.length)
    (hj2 : j < (allAssignments atoms).length) :
    (allAssignments atoms)[j] =
      rowOf atoms (2 ^ atoms.length - 1 - j) := by
  unfold allAssignments
  rw [List.getElem_map, List.getElem_reverse, List.getElem_range]
  simp

lemma allAssignments_nodup (atoms : List Char) :
    (allAssignments atoms).Nodup := by
  unfold allAssignments
  apply List.Nodup.map_on
  · intro x hx y hy hxy
    rw [List.mem_reverse, List.mem_range] at hx hy
    exact rowOf_inj hx hy hxy
  · exact List.nodup_reverse.mpr (List.nodup_range _)

lemma rowOfAux_all_true (n : Nat) :
    ∀ (as : List Char) (i : Nat), i + as.length = n →
      rowOfAux n (2 ^ n - 1) as i = as.map (fun a => (a, true)) := by
  intro as
  induction as with
  | nil => intro i _; rfl
  | cons a as ih =>
    intro i hi
    simp only [rowOfAux, List.map_cons]
    have hlt : n - 1 - i < n := by simp at hi; omega
    rw [Nat.testBit_two_pow_sub_one, decide_eq_true hlt,
      ih (i + 1) (by simp at hi ⊢; omega)]

lemma rowOf_all_true (atoms : List Char) :
    rowOf atoms (2 ^ atoms.length - 1) = atoms.map (fun a => (a, true)) :=
  rowOfAux_all_true atoms.length atoms 0 (by omega)

lemma rowOfAux_all_false (n : Nat) :
    ∀ (as : List Char) (i : Nat),
      rowOfAux n 0 as i = as.map (fun a => (a, false)) := by
  intro as
  induction as with
  | nil => intro i; rfl
  | cons a as ih =>
    intro i
    simp [rowOfAux, Nat.zero_testBit, ih]

lemma rowOf_all_false (atoms : List Char) :
    rowOf atoms 0 = atoms.map (fun a => (a, false)) :=
  rowOfAux_all_false atoms.length atoms 0

lemma allAssignments_head (atoms : List Char) :
    (allAssignments atoms).head? = some (atoms.map (fun a => (a, true))) := by
  have hpos : 0 < 2 ^ atoms.length := Nat.pos_pow_of_pos _ (by omega)
  rw [List.head?_eq_getElem?,
    List.getElem?_eq_getElem (by rw [allAssignments_length]; exact hpos)]
  rw [allAssignments_getElem atoms 0 hpos
    (by rw [allAssignments_length]; exact hpos)]
  rw [show 2 ^ atoms.length - 1 - 0 = 2 ^ atoms.length - 1 by omega]
  rw [rowOf_all_true]

lemma allAssignments_last (atoms : List Char) :
    (allAssignments atoms).getLast? = some (atoms.map (fun a => (a, false))) := by
  have hpos : 0 < 2 ^ atoms.length := Nat.pos_pow_of_pos _ (by omega)
  rw [List.getLast?_eq_getElem?, allAssignments_length,
    List.getElem?_eq_getElem
      (by rw [allAssignments_length]; omega)]
  rw [allAssignments_getElem atoms (2 ^ atoms.length - 1) (by omega)
    (by rw [allAssignments_length]; omega)]
  rw [show 2 ^ atoms.length - 1 - (2 ^ atoms.length - 1) = 0 by omega]
  rw [rowOf_all_false]

/-! ## Lemmas about the subformula collector -/

/-- The accumulator-passing collector is the accumulator plus the pure
post-order list. -/
lemma collectSubformulas_eq (t : FormulaNode) :
    ∀ acc, collectSubformulas t acc = acc ++ postOrder t := by
  induction t with
  | VAR a => intro acc; simp [collectSubformulas, postOrder]
  | UNARY c ih => intro acc; simp [collectSubformulas, postOrder, ih]
  | BINARY op l r ihl ihr =>
    intro acc
    simp [collectSubformulas, postOrder, ihl, ihr]

lemma postOrder_not_var (t : FormulaNode) :
    ∀ x ∈ postOrder t, isVar x = false := by
  induction t with
  | VAR a => intro x hx; cases hx
  | UNARY c ih =>
    intro x hx
    rcases List.mem_append.mp hx with h | h
    · exact ih x h
    · rcases List.mem_singleton.mp h with rfl
      rfl
  | BINARY op l r ihl ihr =>
    intro x hx
    rcases List.mem_append.mp hx with h | h
    · rcases List.mem_append.mp h with h2 | h2
      · exact ihl x h2
      · exact ihr x h2
    · rcases List.mem_singleton.mp h with rfl
      rfl

lemma postOrder_length (t : FormulaNode) :
    (postOrder t).length = countNonAtomic t := by
  induction t with
  | VAR a => rfl
  | UNARY c ih => simp [postOrder, countNonAtomic, ih]
  | BINARY op l r ihl ihr => simp [postOrder, countNonAtomic, ihl, ihr]; omega

lemma postOrder_complete (t : FormulaNode) :
    ∀ s ∈ subtreesOf t, isVar s = false → s ∈ postOrder t := by
  induction t with
  | VAR a =>
    intro s hs hv
    rcases List.mem_singleton.mp hs with rfl
    cases hv
  | UNARY c ih =>
    intro s hs hv
    rcases List.mem_cons.mp hs with rfl | h
    · simp [postOrder]
    · simp only [postOrder, List.mem_append]
      exact Or.inl (ih s h hv)
  | BINARY op l r ihl ihr =>
    intro s hs hv
    rcases List.mem_cons.mp hs with rfl | h
    · simp [postOrder]
    · simp only [postOrder, List.mem_append]
      rcases List.mem_append.mp h with h2 | h2
      · exact Or.inl (Or.inl (ihl s h2 hv))
      · exact Or.inl (Or.inr (ihr s h2 hv))

/-- A non-atomic tree is the last entry of its own post-order list. -/
lemma postOrder_last (t : FormulaNode) (h : isVar t = false) :
    ∃ hlen : 0 < (postOrder t).length,
      (postOrder t)[(postOrder t).length - 1] = t := by
  cases t with
  | VAR a => cases h
  | UNARY c =>
    refine ⟨by simp [postOrder], ?_⟩
    simp only [postOrder]
    rw [List.getElem_concat_length _ _ _ (by simp)]
  | BINARY op l r =>
    refine ⟨by simp [postOrder], ?_⟩
    simp only [postOrder]
    rw [List.getElem_concat_length _ _ _ (by simp)]

/-- Every entry of the post-order list appears strictly after each of its
non-atomic children. -/
lemma postOrder_children_before (t : FormulaNode) :
    ∀ (i : Nat) (hi : i < (postOrder t).length),
      ∀ c ∈ childrenOf ((postOrder t)[i]), isVar c = false →
        ∃ j, ∃ hj : j < (postOrder t).length, j < i ∧ (postOrder t)[j] = c := by
  induction t with
  | VAR a =>
    intro i hi
    cases hi
  | UNARY ch ih =>
    intro i hi c hc hcv
    simp only [postOrder] at hi ⊢
    have hi3 : i < (postOrder ch ++ [FormulaNode.UNARY ch]).length := by
      simpa [postOrder] using hi
    by_cases hlt : i < (postOrder ch).length
    · rw [show (postOrder (FormulaNode.UNARY ch))[i] =
          (postOrder ch ++ [FormulaNode.UNARY ch])[i] from rfl,
        List.getElem_append_left hlt] at hc
      obtain ⟨j, hj, hji, hgj⟩ := ih i hlt c hc hcv
      exact ⟨j, by simp; omega, hji,
        by rw [List.getElem_append_left hj]; exact hgj⟩
    · have hieq : i = (postOrder ch).length := by
        simp at hi
        omega
      rw [show (postOrder (FormulaNode.UNARY ch))[i] =
          (postOrder ch ++ [FormulaNode.UNARY ch])[i] from rfl,
        List.getElem_concat_length _ _ _ hieq] at hc
      simp only [childrenOf, List.mem_singleton] at hc
      rcases hc with rfl
      obtain ⟨hlen, hlast⟩ := postOrder_last c hcv
      refine ⟨(postOrder c).length - 1, by simp; omega, by omega, ?_⟩
      rw [List.getElem_append_left (by omega)]
      exact hlast
  | BINARY op l r ihl ihr =>
    intro i hi c hc hcv
    have hi2 : i < ((postOrder l ++ postOrder r) ++
        [FormulaNode.BINARY op l r]).length := by
      simpa [postOrder] using hi
    have hc2 : c ∈ childrenOf (((postOrder l ++ postOrder r) ++
        [FormulaNode.BINARY op l r])[i]) := hc
    suffices hgoal : ∃ j, ∃ hj : j < ((postOrder l ++ postOrder r) ++
        [FormulaNode.BINARY op l r]).length, j < i ∧
        ((postOrder l ++ postOrder r) ++
          [FormulaNode.BINARY op l r])[j] = c by
      obtain ⟨j, hj, hji, hgj⟩ := hgoal
      exact ⟨j, by simpa [postOrder] using hj, hji, hgj⟩
    by_cases hlt : i < (postOrder l ++ postOrder r).length
    · rw [List.getElem_append_left hlt] at hc2
      by_cases hll : i < (postOrder l).length
      · rw [List.getElem_append_left hll] at hc2
        obtain ⟨j, hj, hji, hgj⟩ := ihl i hll c hc2 hcv
        refine ⟨j, by simp; omega, hji, ?_⟩
        rw [List.getElem_append_left (by simp; omega),
          List.getElem_append_left hj]
        exact hgj
      · have hgel : (postOrder l).length ≤ i := by omega
        rw [List.getElem_append_right hgel] at hc2
        have hir : i - (postOrder l).length < (postOrder r).length := by
          simp at hlt
          omega
        obtain ⟨j, hj, hji, hgj⟩ := ihr _ hir c hc2 hcv
        refine ⟨(postOrder l).length + j, by simp; omega, by omega, ?_⟩
        rw [List.getElem_append_left (by simp; omega),
          List.getElem_append_right (by omega)]
        simpa using hgj
    · have hieq : i = (postOrder l ++ postOrder r).length := by
        simp only [List.length_append, List.length_cons, List.length_nil] at hi2 hlt ⊢
        omega
      rw [List.getElem_concat_length _ _ _ hieq] at hc2
      simp only [childrenOf, List.mem_cons, List.mem_singleton] at hc2
      rcases hc2 with rfl | rfl | hfalse
      · obtain ⟨hlen, hlast⟩ := postOrder_last c hcv
        refine ⟨(postOrder c).length - 1, by simp; omega,
          by simp only [List.length_append] at hieq; omega, ?_⟩
        rw [List.getElem_append_left (by simp; omega),
          List.getElem_append_left (by omega)]
        exact hlast
      · obtain ⟨hlen, hlast⟩ := postOrder_last c hcv
        refine ⟨(postOrder l).length + ((postOrder c).length - 1),
          by simp; omega, by simp only [List.length_append] at hieq; omega, ?_⟩
        rw [List.getElem_append_left (by simp; omega),
          List.getElem_append_right (by omega)]
        simpa using hlast
      · cases hfalse

/-! ## Lemmas about the grammaticality normalizer -/

lemma normalizeChars_append (a b : List Char) :
    normalizeChars (a ++ b) = normalizeChars a ++ normalizeChars b := by
  simp [normalizeChars, stripWs, replNeg, replAnd, replOr, replImp, replBicond,
    List.filter_append, List.flatMap_append]

lemma normalizeChars_op (op : BinOp) :
    normalizeChars (opAscii op) = normalizeChars (opUnicode op) := by
  cases op <;> decide

/-- The two printers normalize to the same string: connective by
connective, the normalizer maps the ASCII and the Unicode spelling to the
same canonical form, and everything else is printed identically. -/
lemma normalizeChars_ascii_unicode (t : FormulaNode) :
    normalizeChars (asciiOf t) = normalizeChars (unicodeOf t) := by
  induction t with
  | VAR a => rfl
  | UNARY c ih =>
    have e1 : asciiOf (.UNARY c) = ['~'] ++ asciiOf c := rfl
    have e2 : unicodeOf (.UNARY c) = ['¬'] ++ unicodeOf c := rfl
    rw [e1, e2, normalizeChars_append, normalizeChars_append, ih]
    congr 1
  | BINARY op l r ihl ihr =>
    have e1 : asciiOf (.BINARY op l r) =
        ['('] ++ asciiOf l ++ ([' '] ++ opAscii op) ++ ([' '] ++ asciiOf r)
          ++ [')'] := by
      simp [asciiOf]
    have e2 : unicodeOf (.BINARY op l r) =
        ['('] ++ unicodeOf l ++ ([' '] ++ opUnicode op) ++ ([' '] ++ unicodeOf r)
          ++ [')'] := by
      simp [unicodeOf]
    rw [e1, e2]
    simp only [normalizeChars_append, ihl, ihr, normalizeChars_op]

/-! ## Lemmas about the random generator -/

lemma randomAtom_upper (atoms : List Char)
    (h : ∀ a ∈ atoms, 'A' ≤ a ∧ a ≤ 'Z') (e : Nat) :
    'A' ≤ randomAtom atoms e ∧ randomAtom atoms e ≤ 'Z' := by
  unfold randomAtom
  rw [List.getD_eq_getElem?_getD]
  rcases hga : atoms[randInt 0 (atoms.length - 1) e]? with _ | a
  · simp only [Option.getD_none]
    decide
  · simp only [Option.getD_some]
    obtain ⟨hlt, rfl⟩ := List.getElem?_eq_some.mp hga
    exact h _ (List.getElem_mem hlt)

/-- Whatever the draws, the generator only produces trees over its atom
pool (plus the fallback `P`), hence uppercase-named trees. -/
lemma generateRandomFormulaAST_upperOk : ∀ (d : Nat) (atoms : List Char)
    (rand : List Nat), (∀ a ∈ atoms, 'A' ≤ a ∧ a ≤ 'Z') →
    upperOk (generateRandomFormulaAST d atoms rand).1 = true := by
  intro d
  induction d with
  | zero =>
    intro atoms rand h
    simp only [generateRandomFormulaAST, upperOk, decide_eq_true_eq]
    exact randomAtom_upper atoms h _
  | succ d ih =>
    intro atoms rand h
    simp only [generateRandomFormulaAST]
    split_ifs with hcoin
    · simp only [upperOk]
      exact ih atoms _ h
    · simp only [upperOk, Bool.and_eq_true]
      exact ⟨ih atoms _ h, ih atoms _ h⟩

lemma ATOM_POOL_upper : ∀ a ∈ ATOM_POOL, 'A' ≤ a ∧ a ≤ 'Z' := by decide

/-- The tree underlying any generated string is well formed. -/
lemma generated_upperOk (rand : List Nat) :
    upperOk (generateRandomFormulaAST (randInt 1 3 (popRand (popRand rand).2).1)
      (ATOM_POOL.take (randInt 2 3 (popRand rand).1)) (popRand (popRand rand).2).2).1
      = true := by
  apply generateRandomFormulaAST_upperOk
  intro a ha
  exact ATOM_POOL_upper a (List.mem_of_mem_take ha)

/-! ## Claim theorems -/

/-- C1: the claim states that `tokenize` maps `v`, `V` and `∨` to an OR
token and never to a VAR token.  On the code this fails for `V`: the
uppercase-letter branch is tested first, so `V` becomes a `VAR` token and
the `c === "V"` test in the OR branch is dead code.  This theorem records
the code's actual behaviour at the failing input: `V` lexes as a variable
(so `P V Q` even fails to parse), while `v` and `∨` do lex as OR. -/
theorem C1_tokenize_V_code_bug :
    tokenizeStr "V" = .ok [.VAR 'V'] ∧
    tokenizeStr "v" = .ok [.OR] ∧
    tokenizeStr "∨" = .ok [.OR] ∧
    parseFormula "P V Q" = .error "Extra tokens at end of input" :=
  ⟨rfl, rfl, rfl, rfl⟩

/-- C2: for distinct atoms, `allAssignments` returns exactly `2 ^ n`
distinct assignments, each total on the atoms (in atom order), row `j`
being the assignment in which atom `i` carries bit `n - 1 - i` of the mask
`2 ^ n - 1 - j` (descending binary order), with first row all-true, last
row all-false, and the `["P","Q"]` table being exactly TT, TF, FT, FF. -/
theorem C2_allAssignments_spec (atoms : List Char) (hnd : atoms.Nodup) :
    (allAssignments atoms).length = 2 ^ atoms.length ∧
    (allAssignments atoms).Nodup ∧
    (∀ row ∈ allAssignments atoms, row.map Prod.fst = atoms) ∧
    (∀ j (hj : j < 2 ^ atoms.length)
      (hj2 : j < (allAssignments atoms).length),
      (allAssignments atoms)[j] =
        rowOf atoms (2 ^ atoms.length - 1 - j)) ∧
    (allAssignments atoms).head? = some (atoms.map (fun a => (a, true))) ∧
    (allAssignments atoms).getLast? = some (atoms.map (fun a => (a, false))) ∧
    allAssignments ['P', 'Q'] =
      [[('P', true), ('Q', true)], [('P', true), ('Q', false)],
       [('P', false), ('Q', true)], [('P', false), ('Q', false)]] := by
  refine ⟨allAssignments_length atoms, allAssignments_nodup atoms, ?_,
    allAssignments_getElem atoms, allAssignments_head atoms,
    allAssignments_last atoms, by decide⟩
  intro row hrow
  unfold allAssignments at hrow
  obtain ⟨mask, _, rfl⟩ := List.mem_map.mp hrow
  exact rowOf_map_fst atoms mask

theorem C2_witness : allAssignments ['P', 'Q'] =
    [[('P', true), ('Q', true)], [('P', true), ('Q', false)],
     [('P', false), ('Q', true)], [('P', false), ('Q', false)]] :=
  (C2_allAssignments_spec ['P', 'Q'] (by decide)).2.2.2.2.2.2

/-- C3: `IMP` is parsed left-associatively: `P -> Q -> R` and
`(P -> Q) -> R` produce the same tree, which evaluates to `false` under
`{P:false, Q:true, R:false}`, whereas the right-associative reading
evaluates to `true` there. -/
theorem C3_imp_left_assoc :
    parseFormula "P -> Q -> R" = .ok impChainLeft ∧
    parseFormula "(P -> Q) -> R" = .ok impChainLeft ∧
    evalNode impChainLeft asgFTF = false ∧
    evalNode impChainRight asgFTF = true :=
  ⟨rfl, rfl, rfl, rfl⟩

/-- C4: on a successful parse the grammaticality warning fires exactly
when the normalized raw input differs from the normalized canonical ASCII
print of the parsed tree; in particular `P & Q v R` parses (AND binds
tighter than OR), prints as `((P & Q) v R)`, and triggers the warning. -/
theorem C4_grammar_warning :
    (∀ s t, parseFormula s = .ok t →
      (loadFormulaWarning s = .ok true ↔
        normalizeForGrammar s ≠ normalizeForGrammar (formulaToAscii t))) ∧
    parseFormula "P & Q v R" = .ok pqrTree ∧
    formulaToAscii pqrTree = "((P & Q) v R)" ∧
    loadFormulaWarning "P & Q v R" = .ok true := by
  refine ⟨?_, rfl, rfl, rfl⟩
  intro s t h
  unfold loadFormulaWarning
  rw [h]
  constructor
  · intro hw
    exact of_decide_eq_true (Except.ok.inj hw)
  · intro hne
    exact congrArg Except.ok (decide_eq_true hne)

theorem C4_witness :
    loadFormulaWarning "P & Q v R" = .ok true :=
  (C4_grammar_warning.1 "P & Q v R" pqrTree C4_grammar_warning.2.1).mpr
    (by decide)

/-- C5: `evalNode` computes Var by lookup, negation as boolean NOT, AND as
conjunction, OR as inclusive disjunction, IMP as material implication
(`not left, or right`) and BICOND as boolean equality; `(P ∧ Q) → ¬R` is
true under `{P:T,Q:T,R:F}` and false under `{P:T,Q:T,R:T}`. -/
theorem C5_evalNode_semantics :
    (∀ (asg : Char → Bool) (a : Char), evalNode (.VAR a) asg = asg a) ∧
    (∀ (asg : Char → Bool) (c : FormulaNode),
      evalNode (.UNARY c) asg = !evalNode c asg) ∧
    (∀ (asg : Char → Bool) (l r : FormulaNode),
      evalNode (.BINARY .AND l r) asg = (evalNode l asg && evalNode r asg)) ∧
    (∀ (asg : Char → Bool) (l r : FormulaNode),
      evalNode (.BINARY .OR l r) asg = (evalNode l asg || evalNode r asg)) ∧
    (∀ (asg : Char → Bool) (l r : FormulaNode),
      evalNode (.BINARY .IMP l r) asg = (!evalNode l asg || evalNode r asg)) ∧
    (∀ (asg : Char → Bool) (l r : FormulaNode),
      evalNode (.BINARY .BICOND l r) asg = (evalNode l asg == evalNode r asg)) ∧
    parseFormula "(P ∧ Q) → ¬R" = .ok pqImpNotR ∧
    evalNode pqImpNotR asgTTF = true ∧
    evalNode pqImpNotR asgTTT = false :=
  ⟨fun _ _ => rfl, fun _ _ => rfl, fun _ _ _ => rfl, fun _ _ _ => rfl,
    fun _ _ _ => rfl, fun _ _ _ => rfl, rfl, rfl, rfl⟩

/-- C6: `collectSubformulas` is the post-order list of non-atomic nodes:
it contains no Var node, has length equal to the number of Unary and
Binary nodes, contains every non-atomic subtree, and places every entry
strictly after each of its non-atomic children. -/
theorem C6_collectSubformulas_postorder (t : FormulaNode) :
    collectSubformulas t [] = postOrder t ∧
    (∀ x ∈ collectSubformulas t [], isVar x = false) ∧
    (collectSubformulas t []).length = countNonAtomic t ∧
    (∀ s ∈ subtreesOf t, isVar s = false → s ∈ collectSubformulas t []) ∧
    (∀ i (hi : i < (collectSubformulas t []).length),
      ∀ c ∈ childrenOf ((collectSubformulas t [])[i]), isVar c = false →
        ∃ j, ∃ hj : j < (collectSubformulas t []).length, j < i ∧
          (collectSubformulas t [])[j] = c) := by
  have he : collectSubformulas t [] = postOrder t := by
    rw [collectSubformulas_eq]
    exact List.nil_append _
  refine ⟨he, ?_, ?_, ?_, ?_⟩
  · rw [he]
    exact postOrder_not_var t
  · rw [he]
    exact postOrder_length t
  · intro s hs hv
    rw [he]
    exact postOrder_complete t s hs hv
  · simp only [he]
    exact postOrder_children_before t

theorem C6_witness :
    (collectSubformulas pqImpNotR []).length = countNonAtomic pqImpNotR :=
  (C6_collectSubformulas_postorder pqImpNotR).2.2.1

/-- C7: whenever `parseFormula` succeeds, printing the resulting tree with
the canonical ASCII printer and re-parsing succeeds and returns a
structurally equal tree (node identities are erased in this embedding). -/
theorem C7_print_parse_roundtrip (s : String) (t : FormulaNode)
    (h : parseFormula s = .ok t) :
    parseFormula (formulaToAscii t) = .ok t :=
  parseFormula_ascii t (parseFormula_wf h)

theorem C7_witness :
    parseFormula (formulaToAscii impChainLeft) = .ok impChainLeft :=
  C7_print_parse_roundtrip "P -> Q -> R" impChainLeft rfl

/-- C8: whatever the random draws, the generated string parses without
error, and re-printing the parsed tree with the Unicode printer
reproduces the generated string exactly. -/
theorem C8_generated_roundtrip (rand : List Nat) :
    ∃ t, parseFormula (generateRandomFormulaString rand) = .ok t ∧
      formulaToUnicode t = generateRandomFormulaString rand := by
  refine ⟨(generateRandomFormulaAST (randInt 1 3 (popRand (popRand rand).2).1)
    (ATOM_POOL.take (randInt 2 3 (popRand rand).1))
    (popRand (popRand rand).2).2).1, ?_, rfl⟩
  exact parseFormula_unicode _ (generated_upperOk rand)

/-- C9: `A~` lexes as a VAR token followed by a NOT token, but parsing
fails: after the top-level production returns, any unconsumed tokens are a
fatal `Extra tokens at end of input` error. -/
theorem C9_trailing_tokens :
    tokenizeStr "A~" = .ok [.VAR 'A', .NOT] ∧
    parseFormula "A~" = .error "Extra tokens at end of input" ∧
    (∀ s toksl t rest, tokenizeStr s = .ok toksl →
      parseBicond (8 * toksl.length + 8) toksl = .ok (t, rest) → rest ≠ [] →
      parseFormula s = .error "Extra tokens at end of input") := by
  refine ⟨rfl, rfl, ?_⟩
  intro s toksl t rest htok hb hne
  unfold parseFormula
  rw [htok]
  show (match parseBicond (8 * toksl.length + 8) toksl with
    | Except.error e => Except.error e
    | Except.ok (root, r2) =>
      if r2 = [] then Except.ok root
      else Except.error "Extra tokens at end of input") =
    Except.error "Extra tokens at end of input"
  rw [hb]
  show (if rest = [] then Except.ok t
    else Except.error "Extra tokens at end of input") =
    Except.error "Extra tokens at end of input"
  rw [if_neg hne]

theorem C9_witness :
    parseFormula "A~" = .error "Extra tokens at end of input" :=
  C9_trailing_tokens.2.2 "A~" [.VAR 'A', .NOT] (.VAR 'A') [.NOT] rfl rfl
    (by decide)

/-- C10: the ASCII and Unicode printers agree up to the grammaticality
normalization map, and consequently re-loading the canonical Unicode
rendering of any parsed formula never triggers the grammaticality
warning. -/
theorem C10_printers_agree :
    (∀ t, normalizeForGrammar (formulaToAscii t) =
      normalizeForGrammar (formulaToUnicode t)) ∧
    (∀ s t, parseFormula s = .ok t →
      loadFormulaWarning (formulaToUnicode t) = .ok false) := by
  have h1 : ∀ t, normalizeForGrammar (formulaToAscii t) =
      normalizeForGrammar (formulaToUnicode t) := by
    intro t
    unfold normalizeForGrammar formulaToAscii formulaToUnicode
    rw [show (String.mk (asciiOf t)).data = asciiOf t from rfl,
      show (String.mk (unicodeOf t)).data = unicodeOf t from rfl,
      normalizeChars_ascii_unicode]
  refine ⟨h1, ?_⟩
  intro s t h
  have hwf := parseFormula_wf h
  unfold loadFormulaWarning
  rw [parseFormula_unicode t hwf]
  exact congrArg Except.ok (decide_eq_false (not_not_intro (h1 t).symm))

theorem C10_witness :
    loadFormulaWarning (formulaToUnicode pqrTree) = .ok false :=
  C10_printers_agree.2 "P & Q v R" pqrTree rfl

end TruthTableTrainer
